import Mathlib

/-!
Verification of the back2blaze coordination layer: the TTL-based lock
manager (back2blaze/locks.py), the task registry (back2blaze/tasks_registry.py),
the scheduler loop (back2blaze/scheduler.py) and the retention engine
(back2blaze/retention.py).

Python strings are embedded as lists of characters (`Str`), timestamps as
rationals (seconds since the epoch), and file contents as `Option Str`
(`none` meaning the file does not exist).  The Python string operations the
code relies on (`strip`, `split` with a maxsplit, `splitlines`, `float`,
`int`, `lower`, `isdigit`) are reproduced over `Str` with their ASCII
semantics.
-/

/-- Python strings, embedded as lists of characters. -/
abbrev Str := List Char

/-- ASCII code point of a character. -/
def charCode (c : Char) : Nat := c.toNat

/-- Python whitespace test (ASCII): space, tab, newline, carriage return,
vertical tab, form feed. -/
def pyIsSpace (c : Char) : Bool :=
  charCode c = 32 || charCode c = 9 || charCode c = 10 ||
  charCode c = 13 || charCode c = 11 || charCode c = 12

/-- Python digit test (ASCII): code points 48 to 57. -/
def pyIsDigit (c : Char) : Bool :=
  48 ≤ charCode c && charCode c ≤ 57

/-- Python lower-casing of one character (ASCII). -/
def pyToLower (c : Char) : Char :=
  if 65 ≤ charCode c && charCode c ≤ 90 then Char.ofNat (charCode c + 32) else c

/-- Python str.strip(): drop leading and trailing whitespace. -/
def pyStrip (s : Str) : Str :=
  ((s.dropWhile pyIsSpace).reverse.dropWhile pyIsSpace).reverse

/-- Split a string at the first occurrence of `sep`: the part before it and,
when `sep` occurs, the remainder after it. -/
def breakAt (sep : Char) : Str → Str × Option Str
  | [] => ([], none)
  | c :: cs =>
    if c = sep then ([], some cs)
    else
      let r := breakAt sep cs
      (c :: r.1, r.2)

/-- Python s.split(sep, maxsplit): split at `sep` at most `n` times. -/
def pySplitMax (sep : Char) : Nat → Str → List Str
  | 0, s => [s]
  | n + 1, s =>
    match breakAt sep s with
    | (pre, none) => [pre]
    | (pre, some rest) => pre :: pySplitMax sep n rest

/-- Unbounded split at `sep` (a string of length L splits at most L times). -/
def splitAll (sep : Char) (s : Str) : List Str :=
  pySplitMax sep s.length s

/-- Python str.splitlines() restricted to newline separators: split at every
newline, with no empty trailing entry for newline-terminated input. -/
def pySplitlines (s : Str) : List Str :=
  let parts := splitAll '\n' s
  if parts.getLast? = some [] then parts.dropLast else parts

/-- Python "\n".join(lines), as used by the registry rewrites. -/
def joinSep (sep : Char) : List Str → Str
  | [] => []
  | [l] => l
  | l :: l2 :: ls => l ++ sep :: joinSep sep (l2 :: ls)

/-- The registry rewrite format: "\n".join(lines) plus a trailing newline
when the line list is nonempty (tasks_registry.py, write_text calls). -/
def joinLines (ls : List Str) : Str :=
  if ls.isEmpty then [] else joinSep '\n' ls ++ ['\n']

/-- Numeric value of a digit string (Python int(s) on an all-digit s). -/
def digitsToNat (s : Str) : Nat :=
  s.foldl (fun a c => 10 * a + (charCode c - 48)) 0

/-- Parse the exponent part of a Python float literal: optional sign then a
nonempty digit run. -/
def pyParseExponent (s : Str) : Option ℤ :=
  match s with
  | [] => none
  | c :: r =>
    if c = '+' then (if r ≠ [] ∧ r.all pyIsDigit then some (digitsToNat r) else none)
    else if c = '-' then
      (if r ≠ [] ∧ r.all pyIsDigit then some (-(digitsToNat r : ℤ)) else none)
    else if (c :: r).all pyIsDigit then some (digitsToNat (c :: r)) else none

/-- Value of integer digits `ip` and fraction digits `fp`, with an optional
exponent suffix left in `rest`. -/
def pyFloatTail (ip fp : Str) (rest : Str) : Option ℚ :=
  let m : ℚ := (digitsToNat ip : ℚ) + (digitsToNat fp : ℚ) / (10 : ℚ) ^ fp.length
  match rest with
  | [] => some m
  | e :: r =>
    if e = 'e' ∨ e = 'E' then (pyParseExponent r).map (fun k => m * (10 : ℚ) ^ k)
    else none

/-- Dispatch on what follows the integer digits `ip` of a float body. -/
def pyFloatSplit (ip : Str) : Str → Option ℚ
  | [] => if ip = [] then none else pyFloatTail ip [] []
  | c :: r2 =>
    if c = '.' then
      (if ip = [] ∧ r2.takeWhile pyIsDigit = [] then none
       else pyFloatTail ip (r2.takeWhile pyIsDigit) (r2.dropWhile pyIsDigit))
    else if ip = [] then none else pyFloatTail ip [] (c :: r2)

/-- Python float(s) on an unsigned body: digits, digits.digits, .digits or
digits., optionally followed by an exponent. -/
def pyFloatUnsigned (s : Str) : Option ℚ :=
  pyFloatSplit (s.takeWhile pyIsDigit) (s.dropWhile pyIsDigit)

/-- Sign dispatch of float parsing, applied to the stripped string. -/
def pyFloatCore : Str → Option ℚ
  | [] => pyFloatUnsigned []
  | c :: r =>
    if c = '+' then pyFloatUnsigned r
    else if c = '-' then (pyFloatUnsigned r).map (fun q => -q)
    else pyFloatUnsigned (c :: r)

/-- Python float(s): strip whitespace, optional sign, then the unsigned body.
`none` is the exception path (ValueError). -/
def pyFloat (s0 : Str) : Option ℚ :=
  pyFloatCore (pyStrip s0)

/-- Python int() applied to a float: truncation toward zero. -/
def pyIntTrunc (q : ℚ) : ℤ :=
  if 0 ≤ q then ⌊q⌋ else ⌈q⌉

/-- The lock file record written by acquire_job_lock (locks.py line 26):
timestamp, pid and hostname separated by pipes, newline-terminated. -/
def lockContent (ts pid host : Str) : Str :=
  ts ++ '|' :: pid ++ '|' :: host ++ ['\n']

/-- The timestamp recovered from an existing lock file
(locks.py lines 18-20): strip the content, split on pipe with maxsplit 2;
an empty first field stands for timestamp 0.0, an unparseable first field
is the exception path (`none`). -/
def parseLockTs (data : Str) : Option ℚ :=
  match pySplitMax '|' 2 (pyStrip data) with
  | [] => some 0
  | p0 :: _ => if p0 = [] then some 0 else pyFloat p0

/-- acquire_job_lock (locks.py lines 14-33) over a lock-file state: returns
whether the lock was acquired together with the new file state.  A held lock
(parsed timestamp younger than the TTL) fails with no write; a missing,
stale or unparseable lock file is overwritten with a fresh record. -/
def acquire_job_lock (fs : Option Str) (ttl_seconds : ℤ) (now : ℚ)
    (nowStr pid host : Str) : Bool × Option Str :=
  let fresh := some (lockContent nowStr pid host)
  match fs with
  | none => (true, fresh)
  | some data =>
    match parseLockTs data with
    | some ts => if now - ts < (ttl_seconds : ℚ) then (false, some data) else (true, fresh)
    | none => (true, fresh)

/-- release_job_lock (locks.py lines 36-41): delete the lock file if
present. -/
def release_job_lock (_fs : Option Str) : Option Str := none

/-- One registry record as appended by add_task_to_registry
(tasks_registry.py lines 51-54). -/
def taskEntry (ts job tid pid host : Str) : Str :=
  ts ++ '|' :: job ++ '|' :: tid ++ '|' :: pid ++ '|' :: host ++ ['\n']

/-- The per-line keep test of get_active_jobs_from_registry
(tasks_registry.py lines 27-40): skip blank lines, lines with fewer than
three pipe-separated fields and lines whose first field is not a float;
keep the rest exactly when the record is younger than the TTL. -/
def registryKeep (ttl_seconds : ℤ) (now : ℚ) (line : Str) : Bool :=
  if pyStrip line = [] then false
  else
    match pySplitMax '|' 4 line with
    | p0 :: _ :: _ :: _ =>
      match pyFloat p0 with
      | some ts => decide (now - ts < (ttl_seconds : ℚ))
      | none => false
    | _ => false

/-- The job name of a registry line: its second pipe-separated field. -/
def registryName (line : Str) : Str :=
  match pySplitMax '|' 4 line with
  | _ :: p1 :: _ => p1
  | _ => []

/-- get_active_jobs_from_registry (tasks_registry.py lines 17-46): return
the job names of the fresh records and the new file state, rewriting the
file to the kept lines when any line was dropped. -/
def get_active_jobs (file : Option Str) (ttl_seconds : ℤ) (now : ℚ) :
    List Str × Option Str :=
  match file with
  | none => ([], none)
  | some content =>
    let lines := pySplitlines content
    let kept := lines.filter (registryKeep ttl_seconds now)
    let jobs := kept.map registryName
    (jobs, if kept ≠ lines then some (joinLines kept) else some content)

/-- add_task_to_registry (tasks_registry.py lines 49-59): create the file if
missing, then append one record. -/
def add_task_to_registry (file : Option Str) (ts job tid pid host : Str) :
    Option Str :=
  some (file.getD [] ++ taskEntry ts job tid pid host)

/-- Whether a registry line belongs to `tid`: at least three pipe-separated
fields and a third field equal to the task id
(tasks_registry.py lines 69-70). -/
def lineMatchesTid (tid : Str) (line : Str) : Bool :=
  match pySplitMax '|' 4 line with
  | _ :: _ :: p2 :: _ => decide (p2 = tid)
  | _ => false

/-- remove_task_from_registry (tasks_registry.py lines 62-76): rewrite the
file omitting every record whose task id matches; a missing file is left
alone, and the file is rewritten only when a line was dropped. -/
def remove_task_from_registry (file : Option Str) (tid : Str) : Option Str :=
  match file with
  | none => none
  | some content =>
    let lines := pySplitlines content
    let newLines := lines.filter (fun l => ! lineMatchesTid tid l)
    if newLines ≠ lines then some (joinLines newLines) else some content

/-- Python truthiness of an Optional[int]: present and nonzero. -/
def optTruthy : Option ℤ → Bool
  | none => false
  | some k => decide (k ≠ 0)

/-- Python l[k:] slicing, including the negative-index case. -/
def pySliceFrom {α : Type} (l : List α) (k : ℤ) : List α :=
  if 0 ≤ k then l.drop k.toNat else l.drop ((l.length : ℤ) + k).toNat

/-- Descending order on (key, last-modified) pairs by last-modified, the
comparison used by keys.sort(key=lambda kv: kv[1], reverse=True). -/
def descLM : (String × ℚ) → (String × ℚ) → Prop := fun a b => b.2 ≤ a.2

instance : DecidableRel descLM := fun a b => inferInstanceAs (Decidable (b.2 ≤ a.2))

/-- The deletion set computed by apply_retention (retention.py lines 13-38)
from the listing snapshot: no-op when both knobs are unset or the listing is
empty; otherwise sort descending by last-modified, take the keys beyond the
keep count and the keys older than the age cutoff, then deduplicate and sort
ascending.  Timestamps are seconds, so the cutoff is now minus 86400 per
day. -/
def retentionToDelete (keys : List (String × ℚ)) (max_keep max_age_days : Option ℤ)
    (now : ℚ) : List String :=
  if ¬ optTruthy max_keep ∧ ¬ optTruthy max_age_days then []
  else if keys = [] then []
  else
    let sorted := List.insertionSort descLM keys
    let d1 :=
      if optTruthy max_keep ∧ (sorted.length : ℤ) > max_keep.getD 0 then
        (pySliceFrom sorted (max_keep.getD 0)).map Prod.fst
      else []
    let d2 :=
      if optTruthy max_age_days then
        (sorted.filter
          (fun kv => decide (kv.2 < now - 86400 * (max_age_days.getD 0 : ℚ)))).map Prod.fst
      else []
    List.insertionSort (· ≤ ·) (d1 ++ d2).dedup

/-- The batch size hard-coded by apply_retention (retention.py line 51). -/
def chunk_size : Nat := 1000

/-- The batches l[0:1000], l[1000:2000], ... of the deletion loop, with fuel
bounded by the list length. -/
def chunksOfF : Nat → List String → List (List String)
  | _, [] => []
  | 0, l => [l]
  | fuel + 1, l => l.take chunk_size :: chunksOfF fuel (l.drop chunk_size)

/-- The batches of the deletion loop (retention.py lines 52-53). -/
def chunksOf (l : List String) : List (List String) :=
  chunksOfF l.length l

/-- The deletion loop of apply_retention (retention.py lines 51-57) run
against a bulk-delete call `d`: issue the batches in order, stopping at the
first call that raises; returns the batches that were issued and the error,
if any, that propagates. -/
def runDeleteBatchesF (d : List String → Except String Unit) :
    Nat → List String → List (List String) × Option String
  | _, [] => ([], none)
  | 0, _ => ([], none)
  | fuel + 1, l =>
    let c := l.take chunk_size
    match d c with
    | Except.error e => ([c], some e)
    | Except.ok _ =>
      let r := runDeleteBatchesF d fuel (l.drop chunk_size)
      (c :: r.1, r.2)

/-- The deletion loop with its fuel instantiated. -/
def runDeleteBatches (d : List String → Except String Unit) (l : List String) :
    List (List String) × Option String :=
  runDeleteBatchesF d l.length l

/-- Observable effects of one apply_retention call: the computed deletion
set, the keys reported by a dry run, the bulk-delete calls issued and the
error, if any, that propagates out. -/
structure RetentionTrace where
  toDelete : List String
  reported : List String
  deleteCalls : List (List String)
  err : Option String
  deriving DecidableEq, Repr

/-- apply_retention (retention.py lines 5-58) over a listing snapshot: when
the deletion set is empty nothing happens; a dry run reports the deletion
set and issues no delete call; a live run issues the batches until one
raises. -/
def apply_retention (keys : List (String × ℚ)) (max_keep max_age_days : Option ℤ)
    (now : ℚ) (dry_run : Bool) (d : List String → Except String Unit) :
    RetentionTrace :=
  let td := retentionToDelete keys max_keep max_age_days now
  if td = [] then ⟨td, [], [], none⟩
  else if dry_run then ⟨td, td, [], none⟩
  else
    let r := runDeleteBatches d td
    ⟨td, [], r.1, r.2⟩

/-- The lines of a registry file state (`none` reads as no lines). -/
def linesOfFile (file : Option Str) : List Str :=
  pySplitlines (file.getD [])

/-- Outcome of one dispatched job execution in the scheduler loop. -/
structure SchedStepResult where
  registry : Option Str
  lock : Option Str
  nextRun : ℚ
  log : List String
  deriving DecidableEq, Repr

/-- The scheduler's handling of one due job after the lock was taken
(scheduler.py lines 76-93): add a registry record, run the job body catching
any error, and in all cases remove the record, release the lock and set
next_run to the post-execution time plus the interval. -/
def scheduler_run_due_job (registry lock : Option Str)
    (ts job tid pid host : Str) (jobResult : Except String Unit)
    (tEnd interval : ℚ) : SchedStepResult :=
  let reg1 := add_task_to_registry registry ts job tid pid host
  let log : List String :=
    match jobResult with
    | Except.ok _ => []
    | Except.error e => ["Job failed: " ++ e]
  let reg2 := remove_task_from_registry reg1 tid
  { registry := reg2
    lock := release_job_lock lock
    nextRun := tEnd + interval
    log := log }

/-- The tick sleep computation of the scheduler loop
(scheduler.py lines 96-98): the tick when no entry exists, otherwise the
time to the next due entry truncated to whole seconds, capped by the tick
and floored at 1. -/
def sched_sleep_for (tick : ℤ) (nextDue : Option ℚ) (now : ℚ) : ℤ :=
  match nextDue with
  | none => tick
  | some nd => max 1 (min tick (pyIntTrunc (nd - now)))

/-- A Python value as received by parse_interval_to_seconds. -/
inductive PyVal where
  | none : PyVal
  | int : ℤ → PyVal
  | float : ℚ → PyVal
  | str : Str → PyVal
  | other : PyVal

/-- Python s.isdigit() (ASCII): nonempty and all digits. -/
def pyIsDigitStr (s : Str) : Bool :=
  !s.isEmpty && s.all pyIsDigit

/-- parse_interval_to_seconds (utils.py lines 68-89): None for missing or
non-numeric non-string values, int(value) for numbers, and for strings the
stripped lower-cased form as a digit string in seconds or a digit string
with an s/m/h/d multiplier; anything else yields None. -/
def parse_interval_to_seconds (v : PyVal) : Option ℤ :=
  match v with
  | PyVal.none => none
  | PyVal.int n => some n
  | PyVal.float q => some (pyIntTrunc q)
  | PyVal.str s0 =>
    let s := (pyStrip s0).map pyToLower
    if pyIsDigitStr s then some (digitsToNat s : ℤ)
    else if s.getLast? = some 's' ∧ pyIsDigitStr s.dropLast then
      some (digitsToNat s.dropLast : ℤ)
    else if s.getLast? = some 'm' ∧ pyIsDigitStr s.dropLast then
      some ((digitsToNat s.dropLast : ℤ) * 60)
    else if s.getLast? = some 'h' ∧ pyIsDigitStr s.dropLast then
      some ((digitsToNat s.dropLast : ℤ) * 3600)
    else if s.getLast? = some 'd' ∧ pyIsDigitStr s.dropLast then
      some ((digitsToNat s.dropLast : ℤ) * 86400)
    else none
  | PyVal.other => none

/-- The listing used by the retention examples: objects A, B, C, D with
last-modified times 10, 9, 8, 1 (larger is newer). -/
def exampleListing : List (String × ℚ) :=
  [("A", 10), ("B", 9), ("C", 8), ("D", 1)]

/-! ### Splitting and joining lemmas -/

theorem breakAt_not_mem {sep : Char} {s : Str} (h : sep ∉ s) :
    breakAt sep s = (s, none) := by
  induction s with
  | nil => rfl
  | cons c cs ih =>
    have h1 : ¬ c = sep := fun e => h (e ▸ List.mem_cons_self c cs)
    have h2 : sep ∉ cs := fun m => h (List.mem_cons_of_mem _ m)
    simp [breakAt, h1, ih h2]

theorem breakAt_append_cons {sep : Char} {a r : Str} (h : sep ∉ a) :
    breakAt sep (a ++ sep :: r) = (a, some r) := by
  induction a with
  | nil => simp [breakAt]
  | cons c cs ih =>
    have h1 : ¬ c = sep := fun e => h (e ▸ List.mem_cons_self c cs)
    have h2 : sep ∉ cs := fun m => h (List.mem_cons_of_mem _ m)
    simp [breakAt, h1, ih h2]

theorem breakAt_rest_length {sep : Char} :
    ∀ {s pre rest : Str}, breakAt sep s = (pre, some rest) → rest.length < s.length := by
  intro s
  induction s with
  | nil => intro pre rest h; simp [breakAt] at h
  | cons c cs ih =>
    intro pre rest h
    by_cases hc : c = sep
    · simp only [breakAt, if_pos hc] at h
      obtain ⟨-, h2⟩ := Prod.mk.injEq .. ▸ h
      cases h2
      simp
    · simp only [breakAt, if_neg hc] at h
      cases hb : breakAt sep cs with
    | mk p orest =>
      rw [hb] at h
      cases orest with
      | none => simp at h
      | some r' =>
        have : r' = rest := by simpa using congrArg Prod.snd h
        subst this
        exact Nat.lt_succ_of_lt (ih hb)

theorem pySplitMax_fuel {sep : Char} :
    ∀ (n m : Nat) (s : Str), s.length ≤ n → s.length ≤ m →
      pySplitMax sep n s = pySplitMax sep m s := by
  intro n
  induction n with
  | zero =>
    intro m s hn _
    have hs : s = [] := List.length_eq_zero.mp (Nat.le_zero.mp hn)
    subst hs
    cases m <;> simp [pySplitMax, breakAt]
  | succ n ih =>
    intro m s hn hm
    cases m with
    | zero =>
      have hs : s = [] := List.length_eq_zero.mp (Nat.le_zero.mp hm)
      subst hs
      simp [pySplitMax, breakAt]
    | succ m =>
      simp only [pySplitMax]
      cases hb : breakAt sep s with
      | mk pre orest =>
        cases orest with
        | none => rfl
        | some rest =>
          have hl := breakAt_rest_length hb
          show pre :: pySplitMax sep n rest = pre :: pySplitMax sep m rest
          rw [ih m rest (by omega) (by omega)]

theorem splitAll_eq (sep : Char) (s : Str) :
    splitAll sep s =
      match breakAt sep s with
      | (pre, none) => [pre]
      | (pre, some rest) => pre :: splitAll sep rest := by
  cases s with
  | nil => rfl
  | cons c cs =>
    show pySplitMax sep (cs.length + 1) (c :: cs) = _
    simp only [pySplitMax]
    cases hb : breakAt sep (c :: cs) with
    | mk pre orest =>
      cases orest with
      | none => rfl
      | some rest =>
        have hl := breakAt_rest_length hb
        simp only [List.length_cons] at hl
        show pre :: pySplitMax sep cs.length rest = pre :: splitAll sep rest
        rw [pySplitMax_fuel cs.length rest.length rest (by omega) (le_refl _)]
        rfl

theorem splitAll_nil (sep : Char) : splitAll sep [] = [[]] := rfl

theorem splitAll_cons_of_eq (sep : Char) (u : Str) :
    splitAll sep (sep :: u) = [] :: splitAll sep u := by
  rw [splitAll_eq]
  simp [breakAt]

theorem splitAll_cons_of_ne (sep c : Char) (u : Str) (h : ¬ c = sep) :
    splitAll sep (c :: u) = (splitAll sep u).modifyHead (fun p => c :: p) := by
  rw [splitAll_eq (s := c :: u), splitAll_eq (s := u)]
  simp only [breakAt, if_neg h]
  cases hb : breakAt sep u with
  | mk pre orest => cases orest <;> simp

theorem splitAll_ne_nil (sep : Char) (s : Str) : splitAll sep s ≠ [] := by
  rw [splitAll_eq]
  cases hb : breakAt sep s with
  | mk pre orest => cases orest <;> simp

theorem modifyHead_append_left {α : Type} (f : α → α) (l m : List α) (h : l ≠ []) :
    (l ++ m).modifyHead f = l.modifyHead f ++ m := by
  cases l with
  | nil => exact absurd rfl h
  | cons a t => simp

theorem splitAll_append_sep (sep : Char) (s t : Str) :
    splitAll sep (s ++ sep :: t) = splitAll sep s ++ splitAll sep t := by
  induction s with
  | nil => simp [splitAll_cons_of_eq, splitAll_nil]
  | cons c cs ih =>
    by_cases hc : c = sep
    · subst hc
      rw [List.cons_append, splitAll_cons_of_eq, splitAll_cons_of_eq, ih]
      simp
    · rw [List.cons_append, splitAll_cons_of_ne _ _ _ hc, splitAll_cons_of_ne _ _ _ hc, ih,
        modifyHead_append_left _ _ _ (splitAll_ne_nil sep cs)]

theorem splitAll_not_mem {sep : Char} {s : Str} (h : sep ∉ s) :
    splitAll sep s = [s] := by
  rw [splitAll_eq, breakAt_not_mem h]

theorem mem_splitAll_not_mem {sep : Char} :
    ∀ {s x : Str}, x ∈ splitAll sep s → sep ∉ x := by
  intro s
  induction s with
  | nil =>
    intro x hx
    rw [splitAll_nil] at hx
    simp at hx
    simp [hx]
  | cons c cs ih =>
    intro x hx
    by_cases hc : c = sep
    · subst hc
      rw [splitAll_cons_of_eq] at hx
      rcases List.mem_cons.mp hx with h1 | h1
      · simp [h1]
      · exact ih h1
    · rw [splitAll_cons_of_ne _ _ _ hc] at hx
      cases hs : splitAll sep cs with
      | nil => exact absurd hs (splitAll_ne_nil sep cs)
      | cons p ps =>
        rw [hs] at hx
        simp only [List.modifyHead] at hx
        rcases List.mem_cons.mp hx with h1 | h1
        · subst h1
          intro hmem
          rcases List.mem_cons.mp hmem with h2 | h2
          · exact hc h2.symm
          · exact ih (hs ▸ List.mem_cons_self p ps) h2
        · exact ih (hs ▸ List.mem_cons_of_mem p h1)

theorem joinSep_cons_head (sep c : Char) (p : Str) (ps : List Str) :
    joinSep sep ((c :: p) :: ps) = c :: joinSep sep (p :: ps) := by
  cases ps <;> simp [joinSep]

theorem joinSep_splitAll (sep : Char) : ∀ s : Str, joinSep sep (splitAll sep s) = s := by
  intro s
  induction s with
  | nil => rfl
  | cons c cs ih =>
    by_cases hc : c = sep
    · subst hc
      rw [splitAll_cons_of_eq]
      cases hs : splitAll c cs with
      | nil => exact absurd hs (splitAll_ne_nil c cs)
      | cons p ps =>
        rw [hs] at ih
        simp [joinSep, ih]
    · rw [splitAll_cons_of_ne _ _ _ hc]
      cases hs : splitAll sep cs with
      | nil => exact absurd hs (splitAll_ne_nil sep cs)
      | cons p ps =>
        rw [hs] at ih
        simp only [List.modifyHead]
        rw [joinSep_cons_head, ih]

theorem splitAll_joinSep {sep : Char} :
    ∀ {ls : List Str}, ls ≠ [] → (∀ l ∈ ls, sep ∉ l) →
      splitAll sep (joinSep sep ls) = ls := by
  intro ls
  induction ls with
  | nil => intro h; exact absurd rfl h
  | cons l t ih =>
    intro _ hmem
    cases t with
    | nil =>
      show splitAll sep l = [l]
      exact splitAll_not_mem (hmem l (List.mem_cons_self l []))
    | cons l2 t2 =>
      show splitAll sep (l ++ sep :: joinSep sep (l2 :: t2)) = l :: l2 :: t2
      rw [splitAll_append_sep, splitAll_not_mem (hmem l (List.mem_cons_self l _)),
        ih (List.cons_ne_nil l2 t2) (fun x hx => hmem x (List.mem_cons_of_mem l hx))]
      rfl

/-! ### Line-level lemmas -/

theorem pySplitlines_nil : pySplitlines [] = [] := by
  simp [pySplitlines, splitAll_nil]

theorem eq_append_newline_of_getLast {c : Str} {a : Char} (h : c.getLast? = some a) :
    ∃ c0, c = c0 ++ [a] :=
  ⟨c.dropLast, (List.dropLast_append_getLast? a h).symm⟩

theorem splitAll_terminated (sep : Char) (c0 : Str) :
    splitAll sep (c0 ++ [sep]) = splitAll sep c0 ++ [[]] := by
  have h := splitAll_append_sep sep c0 []
  simpa [splitAll_nil] using h

theorem pySplitlines_of_terminated (c0 : Str) :
    pySplitlines (c0 ++ ['\n']) = splitAll '\n' c0 := by
  unfold pySplitlines
  rw [splitAll_terminated]
  simp

theorem joinLines_pySplitlines {c : Str} (h : c = [] ∨ c.getLast? = some '\n') :
    joinLines (pySplitlines c) = c := by
  rcases h with h | h
  · subst h
    simp [pySplitlines_nil, joinLines]
  · obtain ⟨c0, rfl⟩ := eq_append_newline_of_getLast h
    rw [pySplitlines_of_terminated]
    unfold joinLines
    rw [if_neg (by simpa using splitAll_ne_nil '\n' c0), joinSep_splitAll]

theorem mem_pySplitlines_not_mem {s l : Str} (h : l ∈ pySplitlines s) : '\n' ∉ l := by
  simp only [pySplitlines] at h
  split at h
  · exact mem_splitAll_not_mem ((List.dropLast_sublist _).subset h)
  · exact mem_splitAll_not_mem h

theorem pySplitlines_joinLines {ls : List Str} (h : ∀ l ∈ ls, '\n' ∉ l) :
    pySplitlines (joinLines ls) = ls := by
  cases ls with
  | nil => simp [joinLines, pySplitlines_nil]
  | cons l t =>
    show pySplitlines (joinSep '\n' (l :: t) ++ ['\n']) = l :: t
    rw [pySplitlines_of_terminated, splitAll_joinSep (List.cons_ne_nil l t) h]

theorem pySplitlines_append_line {c l : Str} (hc : c = [] ∨ c.getLast? = some '\n')
    (hl : '\n' ∉ l) :
    pySplitlines (c ++ (l ++ ['\n'])) = pySplitlines c ++ [l] := by
  rcases hc with h | h
  · subst h
    rw [List.nil_append, pySplitlines_nil, pySplitlines_of_terminated,
      splitAll_not_mem hl, List.nil_append]
  · obtain ⟨c0, rfl⟩ := eq_append_newline_of_getLast h
    have h1 : (c0 ++ ['\n']) ++ (l ++ ['\n']) = (c0 ++ '\n' :: l) ++ ['\n'] := by
      simp
    rw [h1, pySplitlines_of_terminated, splitAll_append_sep,
      splitAll_not_mem hl, pySplitlines_of_terminated]

theorem pySplitMax_append_cons {sep : Char} {a : Str} (n : Nat) (r : Str) (h : sep ∉ a) :
    pySplitMax sep (n + 1) (a ++ sep :: r) = a :: pySplitMax sep n r := by
  simp [pySplitMax, breakAt_append_cons h]

/-! ### Chunking and batch-deletion lemmas -/

theorem drop_chunk_length_le (x : String) (xs : List String) :
    (List.drop chunk_size (x :: xs)).length ≤ xs.length := by
  simp only [List.length_drop, List.length_cons, chunk_size]
  omega

theorem chunksOfF_fuel :
    ∀ (n m : Nat) (l : List String), l.length ≤ n → l.length ≤ m →
      chunksOfF n l = chunksOfF m l := by
  intro n
  induction n with
  | zero =>
    intro m l hn _
    have hl : l = [] := List.length_eq_zero.mp (Nat.le_zero.mp hn)
    subst hl
    cases m <;> rfl
  | succ n ih =>
    intro m l hn hm
    cases l with
    | nil => cases m <;> rfl
    | cons x xs =>
      cases m with
      | zero => simp at hm
      | succ m =>
        show (x :: xs).take chunk_size :: chunksOfF n ((x :: xs).drop chunk_size) =
          (x :: xs).take chunk_size :: chunksOfF m ((x :: xs).drop chunk_size)
        have hxn : xs.length ≤ n := by simpa using hn
        have hxm : xs.length ≤ m := by simpa using hm
        rw [ih m _ (le_trans (drop_chunk_length_le x xs) hxn)
          (le_trans (drop_chunk_length_le x xs) hxm)]

theorem chunksOf_cons_eq (l : List String) (h : l ≠ []) :
    chunksOf l = l.take chunk_size :: chunksOf (l.drop chunk_size) := by
  cases l with
  | nil => exact absurd rfl h
  | cons x xs =>
    show chunksOfF (xs.length + 1) (x :: xs) = _
    show (x :: xs).take chunk_size :: chunksOfF xs.length ((x :: xs).drop chunk_size) = _
    rw [chunksOfF_fuel xs.length ((x :: xs).drop chunk_size).length _
      (drop_chunk_length_le x xs) (le_refl _)]
    rfl

theorem chunksOf_flatten : ∀ (fuel : Nat) (l : List String), l.length ≤ fuel →
    (chunksOfF fuel l).flatten = l := by
  intro fuel
  induction fuel with
  | zero =>
    intro l h
    have hl : l = [] := List.length_eq_zero.mp (Nat.le_zero.mp h)
    subst hl
    rfl
  | succ n ih =>
    intro l h
    cases l with
    | nil => rfl
    | cons x xs =>
      show ((x :: xs).take chunk_size :: chunksOfF n ((x :: xs).drop chunk_size)).flatten = x :: xs
      rw [List.flatten_cons,
        ih _ (le_trans (drop_chunk_length_le x xs) (by simpa using h))]
      exact List.take_append_drop chunk_size (x :: xs)

theorem runDeleteBatchesF_ok (d : List String → Except String Unit)
    (hd : ∀ c, d c = Except.ok ()) :
    ∀ (fuel : Nat) (l : List String), l.length ≤ fuel →
      runDeleteBatchesF d fuel l = (chunksOfF fuel l, none) := by
  intro fuel
  induction fuel with
  | zero =>
    intro l h
    have hl : l = [] := List.length_eq_zero.mp (Nat.le_zero.mp h)
    subst hl
    rfl
  | succ n ih =>
    intro l h
    cases l with
    | nil => rfl
    | cons x xs =>
      show (match d ((x :: xs).take chunk_size) with
        | Except.error e => ([(x :: xs).take chunk_size], some e)
        | Except.ok _ =>
          let r := runDeleteBatchesF d n ((x :: xs).drop chunk_size)
          ((x :: xs).take chunk_size :: r.1, r.2)) = _
      rw [hd ((x :: xs).take chunk_size)]
      have hlen : ((x :: xs).drop chunk_size).length ≤ n :=
        le_trans (drop_chunk_length_le x xs) (by simpa using h)
      simp only [ih _ hlen]
      rfl

theorem runDeleteBatchesF_err_none (d : List String → Except String Unit) :
    ∀ (fuel : Nat) (l : List String), l.length ≤ fuel →
      (runDeleteBatchesF d fuel l).2 = none →
      (runDeleteBatchesF d fuel l).1 = chunksOfF fuel l := by
  intro fuel
  induction fuel with
  | zero =>
    intro l h _
    have hl : l = [] := List.length_eq_zero.mp (Nat.le_zero.mp h)
    subst hl
    rfl
  | succ n ih =>
    intro l h herr
    cases l with
    | nil => rfl
    | cons x xs =>
      have hlen : ((x :: xs).drop chunk_size).length ≤ n :=
        le_trans (drop_chunk_length_le x xs) (by simpa using h)
      cases hc : d ((x :: xs).take chunk_size) with
      | error e =>
        exfalso
        simp only [runDeleteBatchesF, hc] at herr
        exact Option.noConfusion herr
      | ok u =>
        cases u
        simp only [runDeleteBatchesF, hc] at herr ⊢
        rw [ih _ hlen herr]
        rfl

/-! ### Character-level evaluation lemmas -/

theorem takeWhile_eq_self_of_all {p : Char → Bool} :
    ∀ {s : Str}, (∀ c ∈ s, p c = true) → s.takeWhile p = s := by
  intro s
  induction s with
  | nil => intro _; rfl
  | cons c cs ih =>
    intro h
    simp only [List.takeWhile_cons, h c (List.mem_cons_self c cs), if_true]
    rw [ih (fun x hx => h x (List.mem_cons_of_mem c hx))]

theorem dropWhile_eq_nil_of_all {p : Char → Bool} :
    ∀ {s : Str}, (∀ c ∈ s, p c = true) → s.dropWhile p = [] := by
  intro s
  induction s with
  | nil => intro _; rfl
  | cons c cs ih =>
    intro h
    simp only [List.dropWhile_cons, h c (List.mem_cons_self c cs), if_true]
    exact ih (fun x hx => h x (List.mem_cons_of_mem c hx))

theorem pyStrip_eq_self {s : Str} (h : ∀ c ∈ s, pyIsSpace c = false) :
    pyStrip s = s := by
  have h1 : s.dropWhile pyIsSpace = s := by
    cases s with
    | nil => rfl
    | cons c cs => simp [List.dropWhile_cons, h c (List.mem_cons_self c cs)]
  unfold pyStrip
  rw [h1]
  have h2 : s.reverse.dropWhile pyIsSpace = s.reverse := by
    cases hr : s.reverse with
    | nil => rfl
    | cons c cs =>
      have hc : c ∈ s := by
        have hm : c ∈ s.reverse := hr ▸ List.mem_cons_self c cs
        simpa using hm
      simp [List.dropWhile_cons, h c hc]
  rw [h2, List.reverse_reverse]

theorem pyIsDigit_not_space {c : Char} (h : pyIsDigit c = true) :
    pyIsSpace c = false := by
  simp only [pyIsDigit, Bool.and_eq_true, decide_eq_true_eq] at h
  simp only [pyIsSpace, Bool.or_eq_false_iff, decide_eq_false_iff_not]
  omega

theorem pyFloat_digits {s : Str} (hne : s ≠ []) (h : ∀ c ∈ s, pyIsDigit c = true) :
    pyFloat s = some (digitsToNat s : ℚ) := by
  have hsp : ∀ c ∈ s, pyIsSpace c = false := fun c hc => pyIsDigit_not_space (h c hc)
  unfold pyFloat
  rw [pyStrip_eq_self hsp]
  cases s with
  | nil => exact absurd rfl hne
  | cons c cs =>
    have hc := h c (List.mem_cons_self c cs)
    have hplus : ¬ c = '+' := by
      intro e
      subst e
      exact absurd hc (by decide)
    have hminus : ¬ c = '-' := by
      intro e
      subst e
      exact absurd hc (by decide)
    simp only [pyFloatCore, if_neg hplus, if_neg hminus]
    unfold pyFloatUnsigned
    rw [takeWhile_eq_self_of_all h, dropWhile_eq_nil_of_all h]
    simp only [pyFloatSplit, if_neg (List.cons_ne_nil c cs)]
    simp only [pyFloatTail]
    have h0 : (digitsToNat ([] : Str) : ℚ) = 0 := by norm_num [digitsToNat]
    rw [h0]
    norm_num

/-! ### Lock-manager lemmas -/

theorem acquire_true_fresh {fs : Option Str} {ttl : ℤ} {now : ℚ} {nowStr pid host : Str}
    (h : (acquire_job_lock fs ttl now nowStr pid host).1 = true) :
    (acquire_job_lock fs ttl now nowStr pid host).2 =
      some (lockContent nowStr pid host) := by
  cases fs with
  | none => rfl
  | some data =>
    cases hp : parseLockTs data with
    | none => simp [acquire_job_lock, hp]
    | some ts =>
      by_cases hlt : now - ts < (ttl : ℚ)
      · exfalso
        simp [acquire_job_lock, hp, hlt] at h
      · simp [acquire_job_lock, hp, hlt]

/-- Claim C1: acquire fails with no side effect exactly when an existing
lock file's recorded timestamp is younger than the TTL; with no lock file,
or a lock file of age at least the TTL, it writes a fresh record and
returns true; and once the TTL has elapsed after a successful acquisition,
a subsequent acquire for the same job name succeeds. -/
theorem acquire_lock_ttl_contract (fs : Option Str) (ttl : ℤ) (now : ℚ)
    (nowStr pid host : Str) :
    (acquire_job_lock none ttl now nowStr pid host =
      (true, some (lockContent nowStr pid host)))
    ∧ (∀ data ts, fs = some data → parseLockTs data = some ts →
        ((now - ts < (ttl : ℚ) →
            acquire_job_lock fs ttl now nowStr pid host = (false, some data))
          ∧ ((ttl : ℚ) ≤ now - ts →
            acquire_job_lock fs ttl now nowStr pid host =
              (true, some (lockContent nowStr pid host)))))
    ∧ (∀ t1 t1Str p1 h1 now2 s2 p2 h2,
        (acquire_job_lock fs ttl t1 t1Str p1 h1).1 = true →
        parseLockTs (lockContent t1Str p1 h1) = some t1 →
        t1 + (ttl : ℚ) ≤ now2 →
        (acquire_job_lock (acquire_job_lock fs ttl t1 t1Str p1 h1).2
          ttl now2 s2 p2 h2).1 = true) := by
  refine ⟨rfl, ?_, ?_⟩
  · intro data ts hfs hts
    subst hfs
    constructor
    · intro hlt
      simp [acquire_job_lock, hts, hlt]
    · intro hge
      have hn : ¬ (now - ts < (ttl : ℚ)) := not_lt.mpr (by linarith)
      simp [acquire_job_lock, hts, hn]
  · intro t1 t1Str p1 h1 now2 s2 p2 h2 hacq hparse hel
    rw [acquire_true_fresh hacq]
    have hn : ¬ (now2 - t1 < (ttl : ℚ)) := not_lt.mpr (by linarith)
    simp [acquire_job_lock, hparse, hn]

/-- Witness for C1 at concrete inputs: acquiring at time 100 with TTL 10
and re-acquiring at time 115 succeeds. -/
theorem acquire_lock_ttl_contract_witness :
    (acquire_job_lock
      (acquire_job_lock none 10 100 ("100".toList) ("7".toList) ("h".toList)).2
      10 115 ("115".toList) ("8".toList) ("h".toList)).1 = true := by
  have hparse : parseLockTs (lockContent ("100".toList) ("7".toList) ("h".toList))
      = some 100 := by
    have hsplit : pySplitMax '|' 2
        (pyStrip (lockContent ("100".toList) ("7".toList) ("h".toList)))
        = ["100".toList, "7".toList, "h".toList] := by decide
    unfold parseLockTs
    rw [hsplit]
    show (if ("100".toList : Str) = [] then some (0 : ℚ)
      else pyFloat ("100".toList)) = some 100
    rw [if_neg (by decide), pyFloat_digits (by decide) (by decide)]
    have hv : digitsToNat ("100".toList) = 100 := by decide
    rw [hv]
    norm_num
  exact (acquire_lock_ttl_contract none 10 100 ("100".toList) ("7".toList)
    ("h".toList)).2.2 100 ("100".toList) ("7".toList) ("h".toList) 115
    ("115".toList) ("8".toList) ("h".toList) (by rfl) hparse (by norm_num)

/-- Counterexample to claim C10 as stated: a lock file whose first field is
empty is not treated as stale regardless of the TTL; the code reads the
timestamp as 0.0, so with TTL 200 at time 100 the acquire returns false and
leaves the file untouched. -/
theorem lock_empty_field_counterexample :
    acquire_job_lock (some ("|1|h".toList)) 200 100 ("100".toList) ("7".toList)
      ("h".toList) = (false, some ("|1|h".toList)) := by
  have hp : parseLockTs ("|1|h".toList) = some 0 := by
    have hsplit : pySplitMax '|' 2 (pyStrip ("|1|h".toList))
        = [[], "1".toList, "h".toList] := by decide
    unfold parseLockTs
    rw [hsplit]
    rfl
  simp only [acquire_job_lock]
  rw [hp]
  norm_num

/-- Claim C10 (amended): a lock file whose first field does not parse as a
float (the exception path, which also covers an unreadable file) is treated
as stale regardless of the TTL and is overwritten with a fresh record; a
lock file whose first field is empty is instead read as timestamp 0, so
acquire fails exactly when `now` itself is still below the TTL. -/
theorem lock_malformed_content_amended (data : Str) (ttl : ℤ) (now : ℚ)
    (nowStr pid host : Str) :
    (parseLockTs data = none →
      acquire_job_lock (some data) ttl now nowStr pid host =
        (true, some (lockContent nowStr pid host)))
    ∧ ((pySplitMax '|' 2 (pyStrip data)).head? = some [] →
        ((now < (ttl : ℚ) →
            acquire_job_lock (some data) ttl now nowStr pid host = (false, some data))
          ∧ ((ttl : ℚ) ≤ now →
            acquire_job_lock (some data) ttl now nowStr pid host =
              (true, some (lockContent nowStr pid host))))) := by
  constructor
  · intro hp
    simp [acquire_job_lock, hp]
  · intro hh
    have hp : parseLockTs data = some 0 := by
      unfold parseLockTs
      cases hl : pySplitMax '|' 2 (pyStrip data) with
      | nil => rfl
      | cons p0 rest =>
        rw [hl] at hh
        simp only [List.head?_cons, Option.some.injEq] at hh
        simp [hh]
    constructor
    · intro hlt
      simp [acquire_job_lock, hp, hlt]
    · intro hge
      simp [acquire_job_lock, hp, not_lt.mpr hge]

/-- Witness for the amended C10: an unparseable first field is overwritten
regardless of the TTL, while an empty first field with TTL 200 at time 100
still blocks the acquire. -/
theorem lock_malformed_content_amended_witness :
    acquire_job_lock (some ("abc|1|h".toList)) 200 100 ("100".toList) ("7".toList)
      ("h".toList) = (true, some (lockContent ("100".toList) ("7".toList) ("h".toList)))
    ∧ acquire_job_lock (some ("|1|h".toList)) 200 100 ("100".toList) ("7".toList)
      ("h".toList) = (false, some ("|1|h".toList)) := by
  refine ⟨(lock_malformed_content_amended ("abc|1|h".toList) 200 100 _ _ _).1 (by decide),
    ((lock_malformed_content_amended ("|1|h".toList) 200 100 _ _ _).2 (by decide)).1
      (by norm_num)⟩

/-! ### Interval parsing (claim C8) -/

theorem pyToLower_digit {c : Char} (h : pyIsDigit c = true) : pyToLower c = c := by
  simp only [pyIsDigit, Bool.and_eq_true, decide_eq_true_eq] at h
  have hfalse : (65 ≤ charCode c && charCode c ≤ 90) = false := by
    cases hb : (65 ≤ charCode c && charCode c ≤ 90) with
    | false => rfl
    | true =>
      exfalso
      simp only [Bool.and_eq_true, decide_eq_true_eq] at hb
      omega
  simp [pyToLower, hfalse]

theorem map_pyToLower_digits {s : Str} (h : ∀ c ∈ s, pyIsDigit c = true) :
    s.map pyToLower = s := by
  induction s with
  | nil => rfl
  | cons c cs ih =>
    simp only [List.map_cons, pyToLower_digit (h c (List.mem_cons_self c cs)),
      ih (fun x hx => h x (List.mem_cons_of_mem c hx))]

theorem pyIsDigitStr_of_digits {s : Str} (hne : s ≠ []) (h : ∀ c ∈ s, pyIsDigit c = true) :
    pyIsDigitStr s = true := by
  cases s with
  | nil => exact absurd rfl hne
  | cons c cs =>
    simp only [pyIsDigitStr, List.isEmpty_cons, Bool.not_false, Bool.true_and,
      List.all_eq_true]
    exact h

theorem parse_interval_suffix (s : Str) (hne : s ≠ []) (h : ∀ c ∈ s, pyIsDigit c = true)
    (ch : Char) (hch : pyIsDigit ch = false) (hsp : pyIsSpace ch = false)
    (hlow : pyToLower ch = ch) :
    parse_interval_to_seconds (PyVal.str (s ++ [ch])) =
      (if ch = 's' then some (digitsToNat s : ℤ)
       else if ch = 'm' then some ((digitsToNat s : ℤ) * 60)
       else if ch = 'h' then some ((digitsToNat s : ℤ) * 3600)
       else if ch = 'd' then some ((digitsToNat s : ℤ) * 86400)
       else none) := by
  have hds : pyIsDigitStr s = true := pyIsDigitStr_of_digits hne h
  have hnd : pyIsDigitStr (s ++ [ch]) = false := by
    simp [pyIsDigitStr, List.all_append, hch]
  have hstrip : pyStrip (s ++ [ch]) = s ++ [ch] := by
    apply pyStrip_eq_self
    intro c hc
    rcases List.mem_append.mp hc with h1 | h1
    · exact pyIsDigit_not_space (h c h1)
    · rw [List.mem_singleton.mp h1]
      exact hsp
  have hmap : (s ++ [ch]).map pyToLower = s ++ [ch] := by
    rw [List.map_append, map_pyToLower_digits h]
    simp [hlow]
  simp only [parse_interval_to_seconds, hstrip, hmap, hnd, List.getLast?_concat,
    List.dropLast_concat, hds, Bool.false_eq_true, if_false, Option.some.injEq,
    and_true]

/-- Counterexample to claim C8 as stated: a float value is not "another
form" yielding None; parse_interval_to_seconds truncates it to an int, so
2.5 yields a 2-second schedule rather than exclusion. -/
theorem parse_interval_float_counterexample :
    parse_interval_to_seconds (PyVal.float (5 / 2)) = some 2 := by
  show some (pyIntTrunc (5 / 2)) = some 2
  have h : pyIntTrunc (5 / 2) = 2 := by
    unfold pyIntTrunc
    rw [if_pos (by norm_num)]
    norm_num
  rw [h]

/-- Claim C8 (amended): bare ints map to themselves and bare floats to
int(value) (truncation toward zero; the scheduler separately excludes
non-positive intervals), missing and non-numeric non-string values map to
None, a digit string maps to its value in seconds, a digit string suffixed
with s/m/h/d multiplies by 1/60/3600/86400, and the spec's listed examples
hold, with "bogus" yielding None. -/
theorem parse_interval_amended :
    (∀ n : ℤ, parse_interval_to_seconds (PyVal.int n) = some n)
    ∧ (∀ q : ℚ, parse_interval_to_seconds (PyVal.float q) = some (pyIntTrunc q))
    ∧ parse_interval_to_seconds PyVal.none = none
    ∧ parse_interval_to_seconds PyVal.other = none
    ∧ (∀ s : Str, s ≠ [] → (∀ c ∈ s, pyIsDigit c = true) →
        parse_interval_to_seconds (PyVal.str s) = some (digitsToNat s : ℤ)
        ∧ parse_interval_to_seconds (PyVal.str (s ++ ['s'])) = some (digitsToNat s : ℤ)
        ∧ parse_interval_to_seconds (PyVal.str (s ++ ['m'])) =
            some ((digitsToNat s : ℤ) * 60)
        ∧ parse_interval_to_seconds (PyVal.str (s ++ ['h'])) =
            some ((digitsToNat s : ℤ) * 3600)
        ∧ parse_interval_to_seconds (PyVal.str (s ++ ['d'])) =
            some ((digitsToNat s : ℤ) * 86400))
    ∧ parse_interval_to_seconds (PyVal.str ("30s".toList)) = some 30
    ∧ parse_interval_to_seconds (PyVal.str ("5m".toList)) = some 300
    ∧ parse_interval_to_seconds (PyVal.str ("2h".toList)) = some 7200
    ∧ parse_interval_to_seconds (PyVal.str ("1d".toList)) = some 86400
    ∧ parse_interval_to_seconds (PyVal.str ("45".toList)) = some 45
    ∧ parse_interval_to_seconds (PyVal.str ("bogus".toList)) = none := by
  refine ⟨fun n => rfl, fun q => rfl, rfl, rfl, ?_, by decide, by decide, by decide,
    by decide, by decide, by decide⟩
  intro s hne h
  have hsp : ∀ c ∈ s, pyIsSpace c = false := fun c hc => pyIsDigit_not_space (h c hc)
  have hds : pyIsDigitStr s = true := pyIsDigitStr_of_digits hne h
  refine ⟨?_, ?_, ?_, ?_, ?_⟩
  · simp only [parse_interval_to_seconds, pyStrip_eq_self hsp,
      map_pyToLower_digits h, hds, if_true]
  · rw [parse_interval_suffix s hne h 's' (by decide) (by decide) (by decide)]
    rfl
  · rw [parse_interval_suffix s hne h 'm' (by decide) (by decide) (by decide)]
    rfl
  · rw [parse_interval_suffix s hne h 'h' (by decide) (by decide) (by decide)]
    rfl
  · rw [parse_interval_suffix s hne h 'd' (by decide) (by decide) (by decide)]
    rfl

/-- Witness for the amended C8 at a concrete digit string. -/
theorem parse_interval_amended_witness :
    parse_interval_to_seconds (PyVal.str ("45".toList)) = some 45
    ∧ parse_interval_to_seconds (PyVal.str ("45m".toList)) = some 2700 := by
  have h := parse_interval_amended.2.2.2.2.1 ("45".toList) (by decide) (by decide)
  exact ⟨h.1.trans (by decide), h.2.2.1.trans (by decide)⟩

/-! ### Scheduler tick sleep (claim C9) -/

/-- Counterexample to claim C9 as stated: with a configured tick interval
of 0 and an entry already due in the past, the computed sleep is 1, which
exceeds the tick interval. -/
theorem sched_sleep_tick_zero_counterexample :
    sched_sleep_for 0 (some 5) 10 = 1 ∧ ¬ sched_sleep_for 0 (some 5) 10 ≤ 0 := by
  have ht : pyIntTrunc ((5 : ℚ) - 10) = -5 := by
    unfold pyIntTrunc
    rw [if_neg (by norm_num), show ((5 : ℚ) - 10) = ((-5 : ℤ) : ℚ) by norm_num]
    exact Int.ceil_intCast _
  have h : sched_sleep_for 0 (some 5) 10 = 1 := by
    simp only [sched_sleep_for, ht]
    decide
  exact ⟨h, by rw [h]; decide⟩

/-- Claim C9 (amended): on a loop iteration with a next due entry, the
sleep equals the time to the next due entry truncated to whole seconds,
capped at the tick and floored at 1; provided the configured tick interval
is at least 1 time unit (its CLI default is 10), the sleep never exceeds
the tick and never goes below 1 even when the entry is already due. -/
theorem sched_sleep_amended (tick : ℤ) (nd now : ℚ) (htick : 1 ≤ tick) :
    sched_sleep_for tick (some nd) now = max 1 (min tick (pyIntTrunc (nd - now)))
    ∧ 1 ≤ sched_sleep_for tick (some nd) now
    ∧ sched_sleep_for tick (some nd) now ≤ tick := by
  refine ⟨rfl, le_max_left _ _, ?_⟩
  show max 1 (min tick (pyIntTrunc (nd - now))) ≤ tick
  exact max_le htick (min_le_left _ _)

/-- Witness for the amended C9 at tick 10 with an entry due 5 seconds ago. -/
theorem sched_sleep_amended_witness :
    1 ≤ sched_sleep_for 10 (some 5) 0 ∧ sched_sleep_for 10 (some 5) 0 ≤ 10 := by
  have h := sched_sleep_amended 10 5 0 (by norm_num)
  exact ⟨h.2.1, h.2.2⟩

/-! ### Registry removal and scheduler cleanup (claim C4) -/

theorem remove_task_no_match (file : Option Str) (tid : Str) :
    ∀ l ∈ linesOfFile (remove_task_from_registry file tid),
      lineMatchesTid tid l = false := by
  intro l hl
  cases file with
  | none =>
    simp only [remove_task_from_registry, linesOfFile, Option.getD_none,
      pySplitlines_nil] at hl
    exact absurd hl (List.not_mem_nil l)
  | some content =>
    simp only [remove_task_from_registry] at hl
    by_cases hch :
        (pySplitlines content).filter (fun x => ! lineMatchesTid tid x)
          ≠ pySplitlines content
    · rw [if_pos hch] at hl
      have hnl : ∀ x ∈ (pySplitlines content).filter (fun x => ! lineMatchesTid tid x),
          '\n' ∉ x := fun x hx =>
        mem_pySplitlines_not_mem (List.mem_of_mem_filter hx)
      simp only [linesOfFile, Option.getD_some] at hl
      rw [pySplitlines_joinLines hnl] at hl
      have hp := List.of_mem_filter hl
      simpa using hp
    · rw [if_neg hch] at hl
      push_neg at hch
      have hall := List.filter_eq_self.mp hch
      simp only [linesOfFile, Option.getD_some] at hl
      simpa using hall l hl

/-- Claim C4: for a dispatched job execution, any error from the job body
is caught (the resulting state does not depend on the job outcome, and the
error is logged with a "Job failed" line), and on every exit path the
registry record is removed by its task id, the lock is released, and
next_run is set to the post-execution time plus the interval. -/
theorem scheduler_job_failure_cleanup (registry lock : Option Str)
    (ts job tid pid host : Str) (jobResult : Except String Unit)
    (tEnd interval : ℚ) :
    (scheduler_run_due_job registry lock ts job tid pid host jobResult
        tEnd interval).lock = none
    ∧ (scheduler_run_due_job registry lock ts job tid pid host jobResult
        tEnd interval).nextRun = tEnd + interval
    ∧ (scheduler_run_due_job registry lock ts job tid pid host jobResult
        tEnd interval).registry =
      remove_task_from_registry
        (add_task_to_registry registry ts job tid pid host) tid
    ∧ (∀ l ∈ linesOfFile (scheduler_run_due_job registry lock ts job tid pid host
        jobResult tEnd interval).registry, lineMatchesTid tid l = false)
    ∧ ((scheduler_run_due_job registry lock ts job tid pid host jobResult
          tEnd interval).registry,
        (scheduler_run_due_job registry lock ts job tid pid host jobResult
          tEnd interval).lock,
        (scheduler_run_due_job registry lock ts job tid pid host jobResult
          tEnd interval).nextRun) =
      ((scheduler_run_due_job registry lock ts job tid pid host (Except.ok ())
          tEnd interval).registry,
        (scheduler_run_due_job registry lock ts job tid pid host (Except.ok ())
          tEnd interval).lock,
        (scheduler_run_due_job registry lock ts job tid pid host (Except.ok ())
          tEnd interval).nextRun)
    ∧ (∀ e, jobResult = Except.error e →
        (scheduler_run_due_job registry lock ts job tid pid host jobResult
          tEnd interval).log = ["Job failed: " ++ e]) := by
  refine ⟨rfl, rfl, rfl, ?_, rfl, ?_⟩
  · exact remove_task_no_match
      (add_task_to_registry registry ts job tid pid host) tid
  · intro e he
    rw [he]
    rfl

/-! ### Retention batch loop (claims C3 and C5) -/

theorem runDeleteBatches_first_error (d : List String → Except String Unit)
    (l : List String) (e : String) (hne : l ≠ [])
    (hd : d (l.take chunk_size) = Except.error e) :
    runDeleteBatches d l = ([l.take chunk_size], some e) := by
  cases l with
  | nil => exact absurd rfl hne
  | cons x xs =>
    show runDeleteBatchesF d (xs.length + 1) (x :: xs) = _
    simp only [runDeleteBatchesF, hd]

/-- Counterexample to claim C3 as stated: with 1001 keys (two batches) and
a bulk-delete call that raises, only the first batch is attempted, the
second batch is never issued, and the error propagates out of
apply_retention rather than being swallowed. -/
theorem retention_batch_error_counterexample :
    runDeleteBatches (fun _ => Except.error "boom") (List.replicate 1001 "k")
      = ([List.replicate 1000 "k"], some "boom")
    ∧ chunksOf (List.replicate 1001 "k") = [List.replicate 1000 "k", ["k"]]
    ∧ (apply_retention [("a", 0)] none (some 1) 86401 false
        (fun _ => Except.error "boom")).err = some "boom" := by
  have hrepl : List.replicate 1001 "k" ≠ [] := by
    intro hh
    have hlen := congrArg List.length hh
    simp only [List.length_replicate, List.length_nil] at hlen
    omega
  have h1 : (List.replicate 1001 "k").take chunk_size = List.replicate 1000 "k" := by
    rw [List.take_replicate]
    rfl
  have h2 : (List.replicate 1001 "k").drop chunk_size = ["k"] := by
    rw [List.drop_replicate]
    rfl
  refine ⟨?_, ?_, ?_⟩
  · rw [runDeleteBatches_first_error _ _ "boom" hrepl rfl, h1]
  · rw [chunksOf_cons_eq _ hrepl, h1, h2,
      chunksOf_cons_eq ["k"] (List.cons_ne_nil "k" [])]
    have h3 : (["k"] : List String).take chunk_size = ["k"] := by
      rw [List.take_of_length_le (by simp [chunk_size])]
    have h4 : (["k"] : List String).drop chunk_size = [] := by
      rw [List.drop_of_length_le (by simp [chunk_size])]
    rw [h3, h4]
    rfl
  · have htd : retentionToDelete [("a", 0)] none (some 1) 86401 = ["a"] := by
      unfold retentionToDelete
      rw [if_neg (by simp [optTruthy]), if_neg (by simp)]
      have hs : List.insertionSort descLM [(("a" : String), (0 : ℚ))]
          = [(("a" : String), (0 : ℚ))] := rfl
      dsimp only
      rw [hs, if_neg (by simp [optTruthy]), if_pos (by decide),
        List.filter_cons_of_pos (by rw [decide_eq_true_eq]; norm_num),
        List.filter_nil]
      rfl
    unfold apply_retention
    rw [htd]
    have hrun : runDeleteBatches (fun _ => Except.error "boom") ["a"]
        = ([["a"]], some "boom") := by
      have := runDeleteBatches_first_error (fun _ => Except.error "boom")
        ["a"] "boom" (by simp) rfl
      rw [this]
      congr 1
    rw [if_neg (by simp)]
    simp only [Bool.false_eq_true, if_false, hrun]

/-- Claim C3 (amended): in a live retention sweep the deletion loop issues
the batches in order only while the bulk-delete calls succeed; when every
batch succeeds all the batches are issued, but a failing batch stops the
loop at that batch and its error propagates out of apply_retention (where
the scheduler's per-job handler eventually catches and logs it). -/
theorem retention_batch_error_propagates (d : List String → Except String Unit)
    (l : List String) :
    ((runDeleteBatches d l).2 = none → (runDeleteBatches d l).1 = chunksOf l)
    ∧ (∀ e, l ≠ [] → d (l.take chunk_size) = Except.error e →
        runDeleteBatches d l = ([l.take chunk_size], some e))
    ∧ (∀ keys mk mad now,
        retentionToDelete keys mk mad now ≠ [] →
        (apply_retention keys mk mad now false d).err =
          (runDeleteBatches d (retentionToDelete keys mk mad now)).2) := by
  refine ⟨?_, ?_, ?_⟩
  · exact fun h => runDeleteBatchesF_err_none d l.length l (le_refl _) h
  · exact fun e hne hd => runDeleteBatches_first_error d l e hne hd
  · intro keys mk mad now hne
    unfold apply_retention
    rw [if_neg hne]
    rfl

/-- Witness for the amended C3: a two-key deletion set with an always
succeeding delete issues exactly one full batch with no error. -/
theorem retention_batch_error_propagates_witness :
    (runDeleteBatches (fun _ => Except.ok ()) ["a", "b"]).1
      = chunksOf ["a", "b"] := by
  exact (retention_batch_error_propagates (fun _ => Except.ok ()) ["a", "b"]).1
    (by rfl)

/-- Claim C5: a dry-run retention invocation issues no delete call and
raises no error, and the candidate set it reports is exactly the union of
the batches a live run with the same listing and time would delete. -/
theorem retention_dry_run_frame (keys : List (String × ℚ)) (mk mad : Option ℤ)
    (now : ℚ) (d : List String → Except String Unit) :
    (apply_retention keys mk mad now true d).deleteCalls = []
    ∧ (apply_retention keys mk mad now true d).err = none
    ∧ (apply_retention keys mk mad now true d).reported =
      ((apply_retention keys mk mad now false
          (fun _ => Except.ok ())).deleteCalls).flatten := by
  unfold apply_retention
  by_cases h : retentionToDelete keys mk mad now = []
  · rw [if_pos h, if_pos h]
    exact ⟨rfl, rfl, rfl⟩
  · rw [if_neg h, if_neg h]
    refine ⟨rfl, rfl, ?_⟩
    show retentionToDelete keys mk mad now = _
    have hok := runDeleteBatchesF_ok (fun _ => Except.ok ()) (fun c => rfl)
      (retentionToDelete keys mk mad now).length
      (retentionToDelete keys mk mad now) (le_refl _)
    show retentionToDelete keys mk mad now =
      (runDeleteBatches (fun _ => Except.ok ())
        (retentionToDelete keys mk mad now)).1.flatten
    rw [show runDeleteBatches (fun _ => Except.ok ())
        (retentionToDelete keys mk mad now)
      = (chunksOf (retentionToDelete keys mk mad now), none) from hok]
    exact (chunksOf_flatten (retentionToDelete keys mk mad now).length _
      (le_refl _)).symm

/-! ### Retention deletion set (claim C2) -/

/-- Claim C2: the retention deletion set is exactly the union of the keys
beyond position max_keep in the descending last-modified order (when
max_keep is set) and the keys older than the age cutoff (when max_age_days
is set), deduplicated and sorted ascending by key; on the listing
A:10, B:9, C:8, D:1 with max_keep 2 it is C, D, and an age cutoff unions
further keys in rather than intersecting any away. -/
theorem retention_deletion_set_spec (keys : List (String × ℚ)) (mk mad : Option ℤ)
    (now : ℚ) :
    (∀ x : String,
      x ∈ retentionToDelete keys mk mad now ↔
        (keys ≠ [] ∧
          ((optTruthy mk = true ∧
              ((List.insertionSort descLM keys).length : ℤ) > mk.getD 0 ∧
              x ∈ (pySliceFrom (List.insertionSort descLM keys) (mk.getD 0)).map
                Prod.fst)
            ∨ (optTruthy mad = true ∧
                ∃ lm, (x, lm) ∈ keys ∧ lm < now - 86400 * (mad.getD 0 : ℚ)))))
    ∧ (retentionToDelete keys mk mad now).Sorted (· ≤ ·)
    ∧ (retentionToDelete keys mk mad now).Nodup
    ∧ retentionToDelete exampleListing (some 2) none now = ["C", "D"]
    ∧ retentionToDelete exampleListing (some 2) (some 1) (86400 + 5) = ["C", "D"]
    ∧ retentionToDelete exampleListing (some 2) (some 1) (86400 + 19 / 2)
      = ["B", "C", "D"] := by
  refine ⟨?_, ?_, ?_, ?_, ?_, ?_⟩
  · intro x
    unfold retentionToDelete
    by_cases hguard : ¬ optTruthy mk = true ∧ ¬ optTruthy mad = true
    · rw [if_pos hguard]
      simp only [List.not_mem_nil, false_iff]
      rintro ⟨-, h | h⟩
      · exact hguard.1 h.1
      · exact hguard.2 h.1
    · rw [if_neg hguard]
      by_cases hk : keys = []
      · rw [if_pos hk]
        simp [hk]
      · rw [if_neg hk]
        dsimp only
        rw [List.mem_insertionSort, List.mem_dedup, List.mem_append]
        split_ifs with h1 h2 h2
        · simp only [List.mem_map, List.mem_filter]
          constructor
          · rintro (hx | ⟨kv, ⟨hmem, hlt⟩, rfl⟩)
            · exact ⟨hk, Or.inl ⟨h1.1, h1.2, hx⟩⟩
            · exact ⟨hk, Or.inr ⟨h2, kv.2,
                by simpa using (List.mem_insertionSort descLM).mp hmem,
                by simpa using hlt⟩⟩
          · rintro ⟨-, ⟨-, -, hx⟩ | ⟨-, lm, hmem, hlt⟩⟩
            · exact Or.inl hx
            · exact Or.inr ⟨(x, lm),
                ⟨(List.mem_insertionSort descLM).mpr hmem, by simpa using hlt⟩, rfl⟩
        · simp only [List.not_mem_nil, or_false]
          constructor
          · intro hx
            exact ⟨hk, Or.inl ⟨h1.1, h1.2, hx⟩⟩
          · rintro ⟨-, ⟨-, -, hx⟩ | ⟨hmad, -⟩⟩
            · exact hx
            · exact absurd hmad h2
        · simp only [List.not_mem_nil, false_or, List.mem_map, List.mem_filter]
          constructor
          · rintro ⟨kv, ⟨hmem, hlt⟩, rfl⟩
            exact ⟨hk, Or.inr ⟨h2, kv.2,
              by simpa using (List.mem_insertionSort descLM).mp hmem,
              by simpa using hlt⟩⟩
          · rintro ⟨-, ⟨hmk, hlen, -⟩ | ⟨-, lm, hmem, hlt⟩⟩
            · exact absurd ⟨hmk, hlen⟩ h1
            · exact ⟨(x, lm),
                ⟨(List.mem_insertionSort descLM).mpr hmem, by simpa using hlt⟩, rfl⟩
        · simp only [List.not_mem_nil, or_self, false_iff]
          rintro ⟨-, ⟨hmk, hlen, -⟩ | ⟨hmad, -⟩⟩
          · exact absurd ⟨hmk, hlen⟩ h1
          · exact absurd hmad h2
  · unfold retentionToDelete
    by_cases hguard : ¬ optTruthy mk = true ∧ ¬ optTruthy mad = true
    · rw [if_pos hguard]
      exact List.sorted_nil
    · rw [if_neg hguard]
      by_cases hk : keys = []
      · rw [if_pos hk]
        exact List.sorted_nil
      · rw [if_neg hk]
        dsimp only
        exact List.sorted_insertionSort _ _
  · unfold retentionToDelete
    by_cases hguard : ¬ optTruthy mk = true ∧ ¬ optTruthy mad = true
    · rw [if_pos hguard]
      exact List.nodup_nil
    · rw [if_neg hguard]
      by_cases hk : keys = []
      · rw [if_pos hk]
        exact List.nodup_nil
      · rw [if_neg hk]
        dsimp only
        exact ((List.perm_insertionSort _ _).symm).nodup (List.nodup_dedup _)
  · unfold retentionToDelete
    norm_num [optTruthy, List.insertionSort, List.orderedInsert, descLM,
      exampleListing, pySliceFrom]
    decide
  · unfold retentionToDelete
    norm_num [optTruthy, List.insertionSort, List.orderedInsert, descLM,
      exampleListing, pySliceFrom, List.filter_cons]
    decide
  · unfold retentionToDelete
    norm_num [optTruthy, List.insertionSort, List.orderedInsert, descLM,
      exampleListing, pySliceFrom, List.filter_cons]
    decide

/-- Witness for C4 at a concrete failing job: the lock is released and the
failure is logged. -/
theorem scheduler_job_failure_cleanup_witness :
    (scheduler_run_due_job (some []) (some ['x']) ['1'] ['j'] ['t'] ['2'] ['h']
      (Except.error "x") 5 7).lock = none
    ∧ (scheduler_run_due_job (some []) (some ['x']) ['1'] ['j'] ['t'] ['2'] ['h']
      (Except.error "x") 5 7).log = ["Job failed: " ++ "x"] := by
  have h := scheduler_job_failure_cleanup (some []) (some ['x']) ['1'] ['j'] ['t']
    ['2'] ['h'] (Except.error "x") 5 7
  exact ⟨h.1, h.2.2.2.2.2 "x" rfl⟩

/-! ### Registry pruning idempotence (claim C6) -/

/-- Claim C6: reading the registry returns exactly the job names of the
records the keep test accepts and rewrites the file to exactly those
records (stale, blank and malformed lines are silently dropped); a second
read with no intervening writes and no record crossing the TTL boundary
returns the same names and leaves the file byte-identical. -/
theorem registry_prune_idempotent (content : Str) (ttl : ℤ) (now1 now2 : ℚ)
    (hstable : ∀ l ∈ pySplitlines content,
      registryKeep ttl now1 l = registryKeep ttl now2 l) :
    (get_active_jobs (some content) ttl now1).1 =
      ((pySplitlines content).filter (registryKeep ttl now1)).map registryName
    ∧ linesOfFile (get_active_jobs (some content) ttl now1).2 =
      (pySplitlines content).filter (registryKeep ttl now1)
    ∧ (get_active_jobs (get_active_jobs (some content) ttl now1).2 ttl now2).1 =
      (get_active_jobs (some content) ttl now1).1
    ∧ (get_active_jobs (get_active_jobs (some content) ttl now1).2 ttl now2).2 =
      (get_active_jobs (some content) ttl now1).2 := by
  have hfst : (get_active_jobs (some content) ttl now1).1 =
      ((pySplitlines content).filter (registryKeep ttl now1)).map registryName := rfl
  have hsnd : (get_active_jobs (some content) ttl now1).2 =
      (if (pySplitlines content).filter (registryKeep ttl now1) ≠ pySplitlines content
       then some (joinLines ((pySplitlines content).filter (registryKeep ttl now1)))
       else some content) := rfl
  have hkeep2 : ∀ l ∈ (pySplitlines content).filter (registryKeep ttl now1),
      registryKeep ttl now2 l = true := by
    intro l hl
    have h1 := List.mem_filter.mp hl
    rw [← hstable l h1.1]
    exact h1.2
  have hfilter2 : ((pySplitlines content).filter (registryKeep ttl now1)).filter
      (registryKeep ttl now2)
      = (pySplitlines content).filter (registryKeep ttl now1) :=
    List.filter_eq_self.mpr hkeep2
  have hnl : ∀ x ∈ (pySplitlines content).filter (registryKeep ttl now1),
      '\n' ∉ x :=
    fun x hx => mem_pySplitlines_not_mem (List.mem_of_mem_filter hx)
  by_cases hch :
      (pySplitlines content).filter (registryKeep ttl now1) = pySplitlines content
  · have hsnd1 : (get_active_jobs (some content) ttl now1).2 = some content := by
      rw [hsnd, if_neg (by simp [hch])]
    have hfull2 : (pySplitlines content).filter (registryKeep ttl now2)
        = (pySplitlines content).filter (registryKeep ttl now1) := by
      conv_lhs => rw [← hch]
      exact hfilter2
    refine ⟨hfst, ?_, ?_, ?_⟩
    · rw [hsnd1]
      show pySplitlines content = _
      exact hch.symm
    · rw [hsnd1, hfst]
      show ((pySplitlines content).filter (registryKeep ttl now2)).map registryName = _
      rw [hfull2]
    · rw [hsnd1]
      show (if (pySplitlines content).filter (registryKeep ttl now2)
            ≠ pySplitlines content
          then some (joinLines ((pySplitlines content).filter (registryKeep ttl now2)))
          else some content) = some content
      rw [hfull2, if_neg (by simp [hch])]
  · have hsnd1 : (get_active_jobs (some content) ttl now1).2
        = some (joinLines ((pySplitlines content).filter (registryKeep ttl now1))) := by
      rw [hsnd, if_pos hch]
    have hlines2 : pySplitlines (joinLines ((pySplitlines content).filter
        (registryKeep ttl now1)))
        = (pySplitlines content).filter (registryKeep ttl now1) :=
      pySplitlines_joinLines hnl
    refine ⟨hfst, ?_, ?_, ?_⟩
    · rw [hsnd1]
      show pySplitlines (joinLines ((pySplitlines content).filter
        (registryKeep ttl now1))) = _
      exact hlines2
    · rw [hsnd1, hfst]
      show ((pySplitlines (joinLines ((pySplitlines content).filter
          (registryKeep ttl now1)))).filter (registryKeep ttl now2)).map registryName
        = _
      rw [hlines2, hfilter2]
    · rw [hsnd1]
      show (if (pySplitlines (joinLines ((pySplitlines content).filter
              (registryKeep ttl now1)))).filter (registryKeep ttl now2)
            ≠ pySplitlines (joinLines ((pySplitlines content).filter
              (registryKeep ttl now1)))
          then some (joinLines ((pySplitlines (joinLines ((pySplitlines content).filter
            (registryKeep ttl now1)))).filter (registryKeep ttl now2)))
          else some (joinLines ((pySplitlines content).filter (registryKeep ttl now1))))
        = some (joinLines ((pySplitlines content).filter (registryKeep ttl now1)))
      rw [hlines2, hfilter2]
      simp

/-- Witness for C6 at a concrete registry file with one fresh record. -/
theorem registry_prune_idempotent_witness :
    (get_active_jobs (some ("1|j|t|2|h\n".toList)) 10 2).1 = ["j".toList]
    ∧ (get_active_jobs (get_active_jobs (some ("1|j|t|2|h\n".toList)) 10 2).2 10 2).2
      = (get_active_jobs (some ("1|j|t|2|h\n".toList)) 10 2).2 := by
  have hkeep : registryKeep 10 2 ("1|j|t|2|h".toList) = true := by
    unfold registryKeep
    rw [if_neg (by decide)]
    have hsplit : pySplitMax '|' 4 ("1|j|t|2|h".toList)
        = ["1".toList, "j".toList, "t".toList, "2".toList, "h".toList] := by decide
    rw [hsplit]
    show (match pyFloat ("1".toList) with
      | some ts => decide ((2 : ℚ) - ts < ((10 : ℤ) : ℚ))
      | none => false) = true
    rw [pyFloat_digits (by decide) (by decide)]
    show decide ((2 : ℚ) - (digitsToNat ("1".toList) : ℚ) < ((10 : ℤ) : ℚ)) = true
    rw [decide_eq_true_eq]
    have hv : digitsToNat ("1".toList) = 1 := by decide
    rw [hv]
    norm_num
  have h := registry_prune_idempotent ("1|j|t|2|h\n".toList) 10 2 2 (fun l _ => rfl)
  refine ⟨?_, h.2.2.2⟩
  rw [h.1]
  have hsl : pySplitlines ("1|j|t|2|h\n".toList) = ["1|j|t|2|h".toList] := by decide
  rw [hsl, List.filter_cons_of_pos hkeep, List.filter_nil]
  decide

/-! ### Registry add/remove round trip (claim C7) -/

/-- Counterexample to claim C7 as stated: on a registry file "x" that is
not newline-terminated, the appended record merges with the trailing
partial line; removing the task id then deletes the merged line, so the
original record "x" is destroyed and the file ends up empty instead of
unchanged. -/
theorem registry_add_remove_counterexample :
    pySplitlines (['x'] : Str) = [['x']]
    ∧ remove_task_from_registry
        (add_task_to_registry (some ['x']) ['1'] ['j'] ['t'] ['2'] ['h']) ['t']
      = some [] := by
  exact ⟨by decide, by decide⟩

/-- Claim C7 (amended): on a newline-terminated (or empty) registry file,
for well-formed record fields (no pipe in the timestamp, job name, task id
or pid, and no newline in any field) and a task id not already present,
add followed by remove with that task id restores the file byte-for-byte,
leaving every other record's content and order unchanged. -/
theorem registry_add_remove_roundtrip (c ts job tid pid host : Str)
    (hterm : c = [] ∨ c.getLast? = some '\n')
    (hts : '|' ∉ ts) (htsn : '\n' ∉ ts)
    (hjob : '|' ∉ job) (hjobn : '\n' ∉ job)
    (htid : '|' ∉ tid) (htidn : '\n' ∉ tid)
    (hpid : '|' ∉ pid) (hpidn : '\n' ∉ pid)
    (hhostn : '\n' ∉ host)
    (hfresh : ∀ l ∈ pySplitlines c, lineMatchesTid tid l = false) :
    remove_task_from_registry
      (add_task_to_registry (some c) ts job tid pid host) tid = some c := by
  have htaskEntry : taskEntry ts job tid pid host
      = (ts ++ '|' :: (job ++ '|' :: (tid ++ '|' :: (pid ++ '|' :: host)))) ++ ['\n'] := by
    simp [taskEntry, List.cons_append, List.append_assoc]
  have hpipe : ¬ (('\n' : Char) = '|') := by decide
  have hbodyn : '\n' ∉ (ts ++ '|' :: (job ++ '|' :: (tid ++ '|' :: (pid ++ '|' :: host)))) := by
    intro hmem
    simp only [List.mem_append, List.mem_cons] at hmem
    tauto
  have hsa : pySplitlines (c ++ taskEntry ts job tid pid host)
      = pySplitlines c ++ [ts ++ '|' :: (job ++ '|' :: (tid ++ '|' :: (pid ++ '|' :: host)))] := by
    rw [htaskEntry]
    exact pySplitlines_append_line hterm hbodyn
  have hmatch : lineMatchesTid tid
      (ts ++ '|' :: (job ++ '|' :: (tid ++ '|' :: (pid ++ '|' :: host)))) = true := by
    unfold lineMatchesTid
    have hsplit : pySplitMax '|' 4
        (ts ++ '|' :: (job ++ '|' :: (tid ++ '|' :: (pid ++ '|' :: host))))
        = [ts, job, tid, pid, host] := by
      rw [pySplitMax_append_cons 3 _ hts, pySplitMax_append_cons 2 _ hjob,
        pySplitMax_append_cons 1 _ htid, pySplitMax_append_cons 0 _ hpid]
      rfl
    rw [hsplit]
    show decide (tid = tid) = true
    simp
  have hunmatched : (pySplitlines c).filter (fun l => ! lineMatchesTid tid l)
      = pySplitlines c := by
    apply List.filter_eq_self.mpr
    intro a ha
    rw [hfresh a ha]
    rfl
  show remove_task_from_registry
    (some (c ++ taskEntry ts job tid pid host)) tid = some c
  unfold remove_task_from_registry
  dsimp only
  rw [hsa, List.filter_append, hunmatched]
  have hfb : ([ts ++ '|' :: (job ++ '|' :: (tid ++ '|' :: (pid ++ '|' :: host)))] :
      List Str).filter (fun l => ! lineMatchesTid tid l) = [] := by
    simp [List.filter_cons, hmatch]
  rw [hfb, List.append_nil]
  have hne : pySplitlines c ≠ pySplitlines c
      ++ [ts ++ '|' :: (job ++ '|' :: (tid ++ '|' :: (pid ++ '|' :: host)))] := by
    intro h
    have hlen := congrArg List.length h
    simp at hlen
  rw [if_pos hne]
  rw [joinLines_pySplitlines hterm]

/-- Witness for the amended C7: on a newline-terminated one-record file,
add then remove restores the file exactly. -/
theorem registry_add_remove_roundtrip_witness :
    remove_task_from_registry
      (add_task_to_registry (some ("a\n".toList)) ['1'] ['j'] ['t'] ['2'] ['h'])
      ['t'] = some ("a\n".toList) := by
  exact registry_add_remove_roundtrip ("a\n".toList) ['1'] ['j'] ['t'] ['2'] ['h']
    (by decide) (by decide) (by decide) (by decide) (by decide) (by decide)
    (by decide) (by decide) (by decide) (by decide) (by decide)
